import Mathlib

/-!
Verification development for the deduplication ownership index and
crypt-block orchestration in fs/crypto/crypto.c of the f2fs_blockdedup tree.

The C code is shallowly embedded: fingerprints are lists of byte values
(natural numbers below 256, one per char of the 16-byte buffer), the
ownership table cryptArray is a function from slot index to an optional
Cryptitem (none models a NULL pointer), and the machine arithmetic of the
C source (size_t wrap-around, the sign extension performed when a char is
cast to size_t on the x86-64 Linux ABI, where char is signed) is made
explicit.  Loops are embedded as fuel-indexed recursions whose fuel is the
loop counter bound of the source, so every function is total and
executable.
-/


/-- Table capacity C from the source: 1024*1024 slots. -/
def DEDUP_TABLE_SIZE : Nat := 1024 * 1024

/-- Modulus of size_t arithmetic on the 64-bit target. -/
def U64 : Nat := 2 ^ 64

/-- One entry of the ownership index: a 16-byte ciphertext fingerprint and
the owning inode number.  Mirrors struct Cryptitem. -/
structure Cryptitem where
  fingerprint_crypt : List Nat
  ino : Nat
deriving DecidableEq

/-- The in-memory ownership table cryptArray.  A slot holding none models a
NULL pointer (physically empty slot); some item models an allocated entry
(logically empty when item.ino = 0). -/
def CryptTable : Type := Nat → Option Cryptitem

/-- The all-NULL table (the initial state of the global array). -/
def emptyTable : CryptTable := fun _ => none

/-- Overwrite one slot of the table, as the assignment
cryptArray[hashIndex] = crypt_item does. -/
def updateTable (t : CryptTable) (i : Nat) (item : Cryptitem) : CryptTable :=
  fun j => if j = i then some item else t j

/-- The value of (size_t)c for a char holding byte b: on the x86-64 Linux
ABI char is signed, so bytes at or above 128 sign-extend. -/
def charToSizeT (b : Nat) : Nat :=
  if b < 128 then b else U64 - 256 + b

/-- Embedding of hashCrypt from the source: a running size_t sum of the 16
chars of the fingerprint buffer (each cast to size_t, hence sign-extended),
reduced modulo DEDUP_TABLE_SIZE at the end.  The argument models the
16-byte buffer the C function reads. -/
def hashCrypt (finger : List Nat) : Nat :=
  (finger.foldl (fun h b => (h + charToSizeT b) % U64) 0) % DEDUP_TABLE_SIZE

/-- Embedding of the kernel strncmp: compares at most n chars, stops early
at the first difference (returning -1 or 1, comparing as unsigned char) or
at the first NUL byte common to both buffers (returning 0). -/
def strncmp : List Nat → List Nat → Nat → Int
  | _, _, 0 => 0
  | c1 :: cs, c2 :: ct, n + 1 =>
    if c1 ≠ c2 then (if c1 < c2 then -1 else 1)
    else if c1 = 0 then 0
    else strncmp cs ct n
  | _, _, _ + 1 => 0

/-- Embedding of strncpy into a fresh n-byte buffer: copies src bytes up to
and including the first NUL, then pads the rest of the n bytes with NUL;
if src has no NUL among the first n bytes, exactly n bytes are copied. -/
def strncpy : List Nat → Nat → List Nat
  | _, 0 => []
  | [], n + 1 => 0 :: strncpy [] n
  | c :: cs, n + 1 => if c = 0 then 0 :: strncpy [] n else c :: strncpy cs n

/-- The probe loop of crypt_search.  The first Nat argument is the fuel:
the number of advances the loop counter still permits before the
loop > DEDUP_TABLE_SIZE guard fires (the guard allows DEDUP_TABLE_SIZE
advances in total, so crypt_search starts the fuel there).  The second Nat
argument is the current hashIndex. -/
def searchAux (t : CryptTable) (finger : List Nat) : Nat → Nat → Option Cryptitem
  | fuel, hashIndex =>
    match t hashIndex with
    | none => none
    | some item =>
      if strncmp item.fingerprint_crypt finger 16 = 0 then some item
      else
        match fuel with
        | 0 => none
        | fu + 1 => searchAux t finger fu ((hashIndex + 1) % DEDUP_TABLE_SIZE)

/-- Embedding of crypt_search: linear probe from hashCrypt finger, stopping
at a NULL slot, at a strncmp match, or after the loop guard fires. -/
def crypt_search (t : CryptTable) (finger : List Nat) : Option Cryptitem :=
  searchAux t finger DEDUP_TABLE_SIZE (hashCrypt finger)

/-- The probe loop of crypttable_insert.  Advances while the current slot
is physically present and logically occupied (ino > 0); fuel counts the
advances the loop counter still permits (DEDUP_TABLE_SIZE in total).
Returns the updated table and the return code of the C function
(0 on success, 1 when the guard fires). -/
def insertAux (t : CryptTable) (item : Cryptitem) : Nat → Nat → CryptTable × Nat
  | fuel, hashIndex =>
    match t hashIndex with
    | none => (updateTable t hashIndex item, 0)
    | some old =>
      if old.ino > 0 then
        match fuel with
        | 0 => (t, 1)
        | fu + 1 => insertAux t item fu ((hashIndex + 1) % DEDUP_TABLE_SIZE)
      else (updateTable t hashIndex item, 0)

/-- Embedding of crypttable_insert: the stored entry is built first with
strncpy (16 bytes) and the given inode number, then the probe loop finds
the first slot that is NULL or logically empty and overwrites it. -/
def crypttable_insert (t : CryptTable) (finger : List Nat) (ino : Nat) :
    CryptTable × Nat :=
  insertAux t ⟨strncpy finger 16, ino⟩ DEDUP_TABLE_SIZE (hashCrypt finger)

/-- A slot is live when it is physically present and its owner inode is
positive; this is the condition under which the insert probe advances. -/
def slotLive : Option Cryptitem → Prop
  | none => False
  | some item => item.ino > 0

/-- The search-then-insert sequence the encrypt post-step performs on the
in-memory table (lines 269-271 of the source): insert only when
crypt_search finds nothing. -/
def searchThenInsert (t : CryptTable) (finger : List Nat) (ino : Nat) :
    CryptTable :=
  if crypt_search t finger = none then (crypttable_insert t finger ino).1 else t

/-- Small-step view of the crypt_search while loop: a running state holds
the current hashIndex and the loop counter, a done state holds the value
the function returns. -/
inductive SearchProg where
  | running (hashIndex loop : Nat)
  | done (r : Option Cryptitem)
deriving DecidableEq

/-- One iteration of the crypt_search loop body: exit with not-found at a
NULL slot, return the entry on a strncmp match, exit with not-found when
the incremented loop counter exceeds DEDUP_TABLE_SIZE, otherwise advance
one slot (wrapping) and continue. -/
def searchStep (t : CryptTable) (finger : List Nat) : SearchProg → SearchProg
  | .running hashIndex loop =>
    match t hashIndex with
    | none => .done none
    | some item =>
      if strncmp item.fingerprint_crypt finger 16 = 0 then .done (some item)
      else if loop + 1 > DEDUP_TABLE_SIZE then .done none
      else .running ((hashIndex + 1) % DEDUP_TABLE_SIZE) (loop + 1)
  | .done r => .done r

/-- The value of a char holding byte b when read back as a signed integer
(the x86-64 Linux ABI makes char signed). -/
def signedByte (b : Nat) : Int :=
  if b < 128 then (b : Int) else (b : Int) - 256

/-- The hash the specification text describes: the 16 bytes summed as
unsigned integers, reduced modulo the table size.  Stated from the words
of the spec for comparison with hashCrypt, which is taken from the code. -/
def specHashUnsigned (finger : List Nat) : Nat :=
  finger.sum % DEDUP_TABLE_SIZE

/-- Alignment constant checked by fscrypt_crypt_block.  Modelled from the
spec: the constant lives in the fscrypt private header, which is not part
of this excerpt; the spec only requires the length to be a nonzero
multiple of the contents alignment, and no claim depends on the value,
taken here as 16 as in mainline fscrypt. -/
def FSCRYPT_CONTENTS_ALIGNMENT : Nat := 16

/-- Page shift of the target (4096-byte pages). -/
def PAGE_SHIFT : Nat := 12

/-- Direction argument of fscrypt_crypt_block. -/
inductive fscrypt_direction_t where
  | FS_DECRYPT
  | FS_ENCRYPT
deriving DecidableEq

/-- The inode fields the embedded operations consult. -/
structure Inode where
  i_ino : Nat
  i_blkbits : Nat
deriving DecidableEq

/-- The page fields the embedded operations consult: the lock bit, the
host inode of its mapping, its pagecache index, and an abstract content
identifier that the external digest function reads. -/
structure Page where
  locked : Bool
  host : Inode
  index : Nat
  content : Nat
deriving DecidableEq

/-- An entry of the external Logical-Block Recovery Index (struct
Fingercryptitem): ciphertext fingerprint and original logical block
number. -/
structure Fingercryptitem where
  fingerprint_crypt : List Nat
  lblk_num : Nat
deriving DecidableEq

/-- External collaborators of the orchestrator, opaque to this core: the
content digest hash_page_data, the Logical-Block Recovery Index lookup
finger_crypt_search (declared but not defined in this file of the
repository), inode resolution f2fs_iget, the uninitialized bytes kmalloc
leaves in the fingerprint of a bootstrap-materialized entry, and the
outcomes of the request allocation and of the cipher transform. -/
structure CryptEnv where
  hash_page_data : Page → List Nat
  finger_crypt_search : List Nat → Option Fingercryptitem
  f2fs_iget : Nat → Inode
  junk : List Nat
  req_alloc_ok : Bool
  cipher_res : Int

/-- The ownership-index state a crypt operation touches: the in-memory
global cryptArray and the record sequence of the /citable backing file
(none models a record beyond the end of the file). -/
@[ext]
structure CryptState where
  arr : CryptTable
  store : Nat → Option Cryptitem

/-- The bootstrap-then-load sequence both orchestrator paths run before
consulting the ownership index (lines 259-267 and 413-421 of the source):
every NULL slot is first materialized with owner 0 and uninitialized
fingerprint bytes, then each of the C slots is overwritten with the
corresponding backing-store record where the file provides one. -/
def reloadTable (junk : List Nat) (arr : CryptTable)
    (store : Nat → Option Cryptitem) : CryptTable :=
  fun i =>
    if i < DEDUP_TABLE_SIZE then
      match store i with
      | some r => some r
      | none =>
        match arr i with
        | some old => some old
        | none => some ⟨junk, 0⟩
    else arr i

/-- The full write-back of the C-entry in-memory array into the backing
store (lines 272-274 of the source). -/
def writeBackStore (arr : CryptTable) (store : Nat → Option Cryptitem) :
    Nat → Option Cryptitem :=
  fun i => if i < DEDUP_TABLE_SIZE then arr i else store i

/-- The encrypt post-step of fscrypt_crypt_block (lines 255-276): reload
the ownership index from the backing store, search it for the ciphertext
digest, call crypttable_insert only when the search finds nothing, and
write the whole array back regardless.  Returns the new state and the
return code of the insert call when one was made. -/
def encrypt_post_step (junk : List Nat) (st : CryptState) (digest : List Nat)
    (ino : Nat) : CryptState × Option Nat :=
  match crypt_search (reloadTable junk st.arr st.store) digest with
  | some _ =>
    (⟨reloadTable junk st.arr st.store,
      writeBackStore (reloadTable junk st.arr st.store) st.store⟩, none)
  | none =>
    (⟨(crypttable_insert (reloadTable junk st.arr st.store) digest ino).1,
      writeBackStore
        (crypttable_insert (reloadTable junk st.arr st.store) digest ino).1
        st.store⟩,
      some (crypttable_insert (reloadTable junk st.arr st.store) digest ino).2)

/-- Observable outcome of one fscrypt_crypt_block call: the return code,
the logical block number fscrypt_generate_iv received (none when the call
failed before IV derivation), the ownership-index state after the call,
whether the decrypt pre-step reloaded the external finger/block tables
(the unconditional read_finger_blk_table_from_file call), and the return
code of the crypttable_insert call when one was made. -/
structure CryptBlockResult where
  ret : Int
  ivLblk : Option Nat
  state : CryptState
  fingerTableReloaded : Bool
  insertRet : Option Nat

/-- Embedding of fscrypt_crypt_block.  The decrypt pre-step (reload of the
external finger/block tables, digest of the source page, Logical-Block
Recovery Index lookup, lblk_num override) runs before the length checks,
as in the source; the length checks fail with -EINVAL (-22); request
allocation failure yields -ENOMEM (-12) after IV derivation; a cipher
failure is propagated unchanged; on encrypt success the ownership-index
post-step runs before returning 0. -/
def fscrypt_crypt_block (env : CryptEnv) (st : CryptState) (inode : Inode)
    (rw : fscrypt_direction_t) (lblk_num : Nat) (src_page dest_page : Page)
    (len offs : Nat) : CryptBlockResult :=
  let isDecrypt : Bool :=
    match rw with
    | .FS_DECRYPT => true
    | .FS_ENCRYPT => false
  let lblk1 : Nat :=
    if isDecrypt then
      match env.finger_crypt_search (env.hash_page_data src_page) with
      | some item => item.lblk_num
      | none => lblk_num
    else lblk_num
  if len = 0 then ⟨-22, none, st, isDecrypt, none⟩
  else if len % FSCRYPT_CONTENTS_ALIGNMENT ≠ 0 then ⟨-22, none, st, isDecrypt, none⟩
  else if env.req_alloc_ok = false then ⟨-12, some lblk1, st, isDecrypt, none⟩
  else if env.cipher_res ≠ 0 then ⟨env.cipher_res, some lblk1, st, isDecrypt, none⟩
  else
    match rw with
    | .FS_DECRYPT => ⟨0, some lblk1, st, isDecrypt, none⟩
    | .FS_ENCRYPT =>
      let p := encrypt_post_step env.junk st (env.hash_page_data dest_page)
        inode.i_ino
      ⟨0, some lblk1, p.1, isDecrypt, p.2⟩

/-- Observable outcome of one fscrypt_decrypt_pagecache_blocks call: the
return code, the inode whose key context the per-block decrypts were
invoked with, the ownership-index state after the call, and the fact that
the call opened the backing file (with O_CREAT). -/
structure DecryptPageResult where
  ret : Int
  usedInode : Inode
  state : CryptState
  storeOpened : Bool

/-- The per-block decrypt loop of fscrypt_decrypt_pagecache_blocks
(lines 430-435): one fscrypt_crypt_block decrypt per block of the page,
aborting on the first failing block. -/
def decryptBlocksLoop (env : CryptEnv) (st : CryptState) (inode : Inode)
    (page : Page) (blocksize : Nat) : Nat → Nat → Nat → Int
  | _, _, 0 => 0
  | lblk, i, remaining + 1 =>
    let b := fscrypt_crypt_block env st inode .FS_DECRYPT lblk page page
      blocksize i
    if b.ret ≠ 0 then b.ret
    else decryptBlocksLoop env st inode page blocksize (lblk + 1)
      (i + blocksize) remaining

/-- Embedding of fscrypt_decrypt_pagecache_blocks: the backing file is
opened (created if absent) before any check; an unlocked page or a length
violation fails with -EINVAL; otherwise the ownership index is reloaded
from the backing store, searched with the page digest, and on a hit the
key context switches to the inode f2fs_iget resolves from the entry owner
before the per-block decrypt loop runs (the fscrypt_require_key result is
discarded by the source, so it does not appear here). -/
def fscrypt_decrypt_pagecache_blocks (env : CryptEnv) (st : CryptState)
    (page : Page) (len offs : Nat) : DecryptPageResult :=
  let inode0 := page.host
  let blocksize := 2 ^ inode0.i_blkbits
  let lblk0 := (page.index <<< (PAGE_SHIFT - inode0.i_blkbits)) +
    (offs >>> inode0.i_blkbits)
  if page.locked = false then ⟨-22, inode0, st, true⟩
  else if len = 0 then ⟨-22, inode0, st, true⟩
  else if (len ||| offs) % blocksize ≠ 0 then ⟨-22, inode0, st, true⟩
  else
    let a1 := reloadTable env.junk st.arr st.store
    let st1 : CryptState := ⟨a1, st.store⟩
    let inode1 :=
      match crypt_search a1 (env.hash_page_data page) with
      | some item => env.f2fs_iget item.ino
      | none => inode0
    ⟨decryptBlocksLoop env st1 inode1 page blocksize lblk0 offs
        (len / blocksize), inode1, st1, true⟩

/-- Fingerprint fixtures for the counterexamples: fpA and fpB are distinct
16-byte fingerprints that agree up to their common NUL at offset 1, so
strncmp cannot tell them apart; fpC contains an interior NUL followed by a
nonzero byte, so strncpy truncates it. -/
def fpA : List Nat := [3, 0, 1] ++ List.replicate 13 0

/-- Second colliding fingerprint, distinct from fpA, strncmp-equal to it. -/
def fpB : List Nat := [3, 0, 0, 1] ++ List.replicate 12 0

/-- Fingerprint with an interior NUL that strncpy truncates at. -/
def fpC : List Nat := [1, 0, 2] ++ List.replicate 13 0

/-- Inode fixture used by witnesses: inode 7, 4096-byte blocks. -/
def inodeW : Inode := ⟨7, 12⟩

/-- A locked page hosted by inodeW. -/
def pageW : Page := ⟨true, inodeW, 0, 0⟩

/-- An unlocked page hosted by inodeW. -/
def pageUnlockedW : Page := ⟨false, inodeW, 0, 0⟩

/-- A NUL-free 16-byte digest value. -/
def digestW : List Nat := List.replicate 16 1

/-- Environment fixture: every page digests to digestW, the recovery index
maps every digest to logical block 99, inode resolution returns an inode
numbered by its argument, the kmalloc junk bytes equal digestW, request
allocation succeeds and the cipher succeeds. -/
def envW : CryptEnv :=
  ⟨fun _ => digestW, fun _ => some ⟨digestW, 99⟩, fun n => ⟨n, 12⟩, digestW,
    true, 0⟩

/-- State fixture: NULL in-memory table and empty backing file. -/
def stW : CryptState := ⟨emptyTable, fun _ => none⟩

/-- State fixture whose backing file holds, at the home slot of digestW, a
live record owned by inode 42. -/
def stOwned : CryptState :=
  ⟨emptyTable,
    fun i => if i = hashCrypt digestW then some ⟨digestW, 42⟩ else none⟩

/-- State fixture whose backing file holds, at the home slot of digestW, a
logically empty record (owner 0) with matching fingerprint bytes — the
shape bootstrap materialization leaves behind. -/
def stBootstrapped : CryptState :=
  ⟨emptyTable,
    fun i => if i = hashCrypt digestW then some ⟨digestW, 0⟩ else none⟩

/-- Table fixture for C10: the home slot of digestW holds a logically
empty entry (owner 0) whose fingerprint bytes equal digestW; every other
slot is NULL. -/
def tableBootstrapped : CryptTable :=
  fun i => if i = hashCrypt digestW then some ⟨digestW, 0⟩ else none

example : hashCrypt (255 :: List.replicate 15 0) = 1048575 := by decide
example : hashCrypt (List.replicate 16 1) = 16 := by decide
example : strncmp [3, 0, 1] [3, 0, 2] 16 = 0 := by decide
example : strncpy ([1, 0, 2] ++ List.replicate 13 0) 16 = 1 :: List.replicate 15 0 := by decide

/-- The table capacity is positive. -/
theorem dedup_pos : 0 < DEDUP_TABLE_SIZE := by decide

/-- The hash always lands inside the table. -/
theorem hashCrypt_lt (finger : List Nat) : hashCrypt finger < DEDUP_TABLE_SIZE :=
  Nat.mod_lt _ dedup_pos

/-- First probe position of a probe sequence starting inside the table. -/
theorem probe_zero {s : Nat} (hs : s < DEDUP_TABLE_SIZE) :
    (s + 0) % DEDUP_TABLE_SIZE = s := by
  simpa using Nat.mod_eq_of_lt hs

/-- Shifting the probe sequence by one advance. -/
theorem probe_shift (s i : Nat) :
    ((s + 1) % DEDUP_TABLE_SIZE + i) % DEDUP_TABLE_SIZE =
      (s + (i + 1)) % DEDUP_TABLE_SIZE := by
  rw [Nat.mod_add_mod]
  congr 1
  omega

/-- A search probe stops with not-found at a NULL slot. -/
theorem searchAux_of_none {t : CryptTable} {f : List Nat} {fuel s : Nat}
    (h : t s = none) : searchAux t f fuel s = none := by
  cases fuel <;> simp [searchAux, h]

/-- A search probe stops with the entry at a strncmp match. -/
theorem searchAux_match {t : CryptTable} {f : List Nat} {fuel s : Nat}
    {it : Cryptitem} (h : t s = some it)
    (hm : strncmp it.fingerprint_crypt f 16 = 0) :
    searchAux t f fuel s = some it := by
  cases fuel <;> simp [searchAux, h, hm]

/-- A search probe advances past an allocated non-matching slot while fuel
remains. -/
theorem searchAux_step {t : CryptTable} {f : List Nat} {fu s : Nat}
    {it : Cryptitem} (h : t s = some it)
    (hm : ¬ strncmp it.fingerprint_crypt f 16 = 0) :
    searchAux t f (fu + 1) s = searchAux t f fu ((s + 1) % DEDUP_TABLE_SIZE) := by
  simp [searchAux, h, hm]

/-- With the loop guard exhausted, a non-matching allocated slot makes the
search return not-found. -/
theorem searchAux_exhaust {t : CryptTable} {f : List Nat} {s : Nat}
    {it : Cryptitem} (h : t s = some it)
    (hm : ¬ strncmp it.fingerprint_crypt f 16 = 0) :
    searchAux t f 0 s = none := by
  simp [searchAux, h, hm]

/-- An insert probe writes into a NULL slot. -/
theorem insertAux_of_none {t : CryptTable} {item : Cryptitem} {fuel s : Nat}
    (h : t s = none) : insertAux t item fuel s = (updateTable t s item, 0) := by
  cases fuel <;> simp [insertAux, h]

/-- An insert probe overwrites a logically empty slot. -/
theorem insertAux_of_dead {t : CryptTable} {item : Cryptitem} {fuel s : Nat}
    {old : Cryptitem} (h : t s = some old) (h0 : old.ino = 0) :
    insertAux t item fuel s = (updateTable t s item, 0) := by
  cases fuel <;> simp [insertAux, h, h0]

/-- An insert probe advances past a live slot while fuel remains. -/
theorem insertAux_step {t : CryptTable} {item : Cryptitem} {fu s : Nat}
    {old : Cryptitem} (h : t s = some old) (hl : old.ino > 0) :
    insertAux t item (fu + 1) s =
      insertAux t item fu ((s + 1) % DEDUP_TABLE_SIZE) := by
  simp [insertAux, h, hl]

/-- With the loop guard exhausted, a live slot makes the insert fail with
return code 1, leaving the table unchanged. -/
theorem insertAux_exhaust {t : CryptTable} {item : Cryptitem} {s : Nat}
    {old : Cryptitem} (h : t s = some old) (hl : old.ino > 0) :
    insertAux t item 0 s = (t, 1) := by
  simp [insertAux, h, hl]

/-- strncmp compares no bytes when the count is 0. -/
theorem strncmp_zero (f g : List Nat) : strncmp f g 0 = 0 := by
  cases f <;> cases g <;> rfl

/-- strncmp advances over a common nonzero head byte. -/
theorem strncmp_cons_eq {c : Nat} (hc : c ≠ 0) (cs ct : List Nat) (n : Nat) :
    strncmp (c :: cs) (c :: ct) (n + 1) = strncmp cs ct n := by
  simp [strncmp, hc]

/-- strncmp on distinct head bytes returns a nonzero sign. -/
theorem strncmp_cons_ne {c1 c2 : Nat} (h : c1 ≠ c2) (cs ct : List Nat) (n : Nat) :
    strncmp (c1 :: cs) (c2 :: ct) (n + 1) ≠ 0 := by
  simp only [strncmp, ne_eq, h, not_false_eq_true, if_true]
  split <;> simp

/-- strncmp of a buffer against itself is 0. -/
theorem strncmp_self : ∀ (n : Nat) (f : List Nat), strncmp f f n = 0 := by
  intro n
  induction n with
  | zero => intro f; exact strncmp_zero f f
  | succ m ih =>
    intro f
    cases f with
    | nil => rfl
    | cons c cs =>
      by_cases hc : c = 0
      · simp [strncmp, hc]
      · simp [strncmp, hc, ih cs]

/-- The strncpy image of a buffer compares strncmp-equal to the buffer. -/
theorem strncmp_strncpy : ∀ (n : Nat) (f : List Nat),
    strncmp (strncpy f n) f n = 0 := by
  intro n
  induction n with
  | zero => intro f; exact strncmp_zero _ f
  | succ m ih =>
    intro f
    cases f with
    | nil => rfl
    | cons c cs =>
      by_cases hc : c = 0
      · simp [strncpy, strncmp, hc]
      · simp [strncpy, strncmp, hc, ih cs]

/-- On a NUL-free buffer of exactly n bytes, strncpy copies verbatim. -/
theorem strncpy_of_no_nul : ∀ (n : Nat) (f : List Nat), f.length = n →
    (∀ b ∈ f, b ≠ 0) → strncpy f n = f := by
  intro n
  induction n with
  | zero =>
    intro f hf _
    cases f with
    | nil => rfl
    | cons c cs => simp at hf
  | succ m ih =>
    intro f hf hz
    cases f with
    | nil => simp at hf
    | cons c cs =>
      have hc : c ≠ 0 := hz c (List.mem_cons_self c cs)
      simp only [strncpy, if_neg hc]
      have := ih cs (by simpa using hf) (fun b hb => hz b (List.mem_cons_of_mem c hb))
      rw [this]

/-- Distinct equal-length buffers whose left argument is NUL-free are
strncmp-distinct. -/
theorem strncmp_ne_of_ne : ∀ (n : Nat) (f g : List Nat), f.length = n →
    g.length = n → (∀ b ∈ f, b ≠ 0) → f ≠ g → strncmp f g n ≠ 0 := by
  intro n
  induction n with
  | zero =>
    intro f g hf hg _ hne
    exact absurd (by cases f <;> cases g <;> simp_all) hne
  | succ m ih =>
    intro f g hf hg hz hne
    cases f with
    | nil => simp at hf
    | cons c1 cs =>
      cases g with
      | nil => simp at hg
      | cons c2 ct =>
        by_cases hcc : c1 = c2
        · subst hcc
          have hc1 : c1 ≠ 0 := hz c1 (List.mem_cons_self c1 cs)
          have hcs : cs ≠ ct := by
            intro hEq
            exact hne (by rw [hEq])
          rw [strncmp_cons_eq hc1]
          exact ih cs ct (by simpa using hf) (by simpa using hg)
            (fun b hb => hz b (List.mem_cons_of_mem c1 hb)) hcs
        · exact strncmp_cons_ne hcc cs ct m

/-- Reading back the slot an update wrote. -/
theorem updateTable_same (t : CryptTable) (i : Nat) (item : Cryptitem) :
    updateTable t i item i = some item := by
  simp [updateTable]

/-- Updates leave the other slots alone. -/
theorem updateTable_other (t : CryptTable) (i : Nat) (item : Cryptitem)
    {j : Nat} (h : j ≠ i) : updateTable t i item j = t j := by
  simp [updateTable, h]

/-- Full characterization of the insert probe: a success writes the new
entry into the first slot of the probe sequence that is not live, after
passing only live slots (never overwriting a live entry); a failure leaves
the table unchanged and happens exactly when every probed slot (fuel + 1
of them) is live. -/
theorem insertAux_spec (t : CryptTable) (item : Cryptitem) :
    ∀ fuel s, s < DEDUP_TABLE_SIZE →
      (((insertAux t item fuel s).2 = 0 →
        ∃ j, j ≤ fuel ∧
          (∀ i, i < j → slotLive (t ((s + i) % DEDUP_TABLE_SIZE))) ∧
          ¬ slotLive (t ((s + j) % DEDUP_TABLE_SIZE)) ∧
          (insertAux t item fuel s).1 =
            updateTable t ((s + j) % DEDUP_TABLE_SIZE) item) ∧
       ((insertAux t item fuel s).2 ≠ 0 →
        insertAux t item fuel s = (t, 1) ∧
          ∀ i, i ≤ fuel → slotLive (t ((s + i) % DEDUP_TABLE_SIZE)))) := by
  intro fuel
  induction fuel with
  | zero =>
    intro s hs
    rcases h : t s with _ | old
    · rw [insertAux_of_none h]
      exact ⟨fun _ => ⟨0, Nat.le_refl 0, fun i hi => absurd hi (Nat.not_lt_zero i),
        by simp [slotLive, Nat.mod_eq_of_lt hs, h], by rw [probe_zero hs]⟩,
        fun hx => absurd rfl hx⟩
    · by_cases hl : old.ino > 0
      · rw [insertAux_exhaust h hl]
        refine ⟨fun hx => absurd hx one_ne_zero, fun _ => ⟨rfl, ?_⟩⟩
        intro i hi
        have hi0 : i = 0 := Nat.le_zero.mp hi
        subst hi0
        rw [probe_zero hs, h]
        exact hl
      · have h0 : old.ino = 0 := by omega
        rw [insertAux_of_dead h h0]
        exact ⟨fun _ => ⟨0, Nat.le_refl 0, fun i hi => absurd hi (Nat.not_lt_zero i),
          by simp [slotLive, Nat.mod_eq_of_lt hs, h, h0], by rw [probe_zero hs]⟩,
          fun hx => absurd rfl hx⟩
  | succ fu ih =>
    intro s hs
    rcases h : t s with _ | old
    · rw [insertAux_of_none h]
      exact ⟨fun _ => ⟨0, Nat.zero_le _, fun i hi => absurd hi (Nat.not_lt_zero i),
        by simp [slotLive, Nat.mod_eq_of_lt hs, h], by rw [probe_zero hs]⟩,
        fun hx => absurd rfl hx⟩
    · by_cases hl : old.ino > 0
      · rw [insertAux_step h hl]
        have hs1 : (s + 1) % DEDUP_TABLE_SIZE < DEDUP_TABLE_SIZE :=
          Nat.mod_lt _ dedup_pos
        obtain ⟨ih0, ih1⟩ := ih ((s + 1) % DEDUP_TABLE_SIZE) hs1
        constructor
        · intro hsucc
          obtain ⟨j, hj, hpre, hfree, heq⟩ := ih0 hsucc
          refine ⟨j + 1, Nat.succ_le_succ hj, ?_, ?_, ?_⟩
          · intro i hi
            cases i with
            | zero =>
              rw [probe_zero hs, h]
              exact hl
            | succ i2 =>
              have hp := hpre i2 (Nat.lt_of_succ_lt_succ hi)
              rwa [probe_shift] at hp
          · have hpf := hfree
            rwa [probe_shift] at hpf
          · rw [heq, probe_shift]
        · intro hne
          obtain ⟨heq, hall⟩ := ih1 hne
          refine ⟨heq, ?_⟩
          intro i hi
          cases i with
          | zero =>
            rw [probe_zero hs, h]
            exact hl
          | succ i2 =>
            have hp := hall i2 (Nat.le_of_succ_le_succ hi)
            rwa [probe_shift] at hp
      · have h0 : old.ino = 0 := by omega
        rw [insertAux_of_dead h h0]
        exact ⟨fun _ => ⟨0, Nat.zero_le _, fun i hi => absurd hi (Nat.not_lt_zero i),
          by simp [slotLive, Nat.mod_eq_of_lt hs, h, h0], by rw [probe_zero hs]⟩,
          fun hx => absurd rfl hx⟩

/-- The insert probe either leaves the table unchanged or overwrites
exactly one slot. -/
theorem insertAux_result (t : CryptTable) (item : Cryptitem) :
    ∀ fuel s, (insertAux t item fuel s).1 = t ∨
      ∃ p, (insertAux t item fuel s).1 = updateTable t p item := by
  intro fuel
  induction fuel with
  | zero =>
    intro s
    rcases h : t s with _ | old
    · rw [insertAux_of_none h]
      exact Or.inr ⟨s, rfl⟩
    · by_cases hl : old.ino > 0
      · rw [insertAux_exhaust h hl]
        exact Or.inl rfl
      · rw [insertAux_of_dead h (by omega)]
        exact Or.inr ⟨s, rfl⟩
  | succ fu ih =>
    intro s
    rcases h : t s with _ | old
    · rw [insertAux_of_none h]
      exact Or.inr ⟨s, rfl⟩
    · by_cases hl : old.ino > 0
      · rw [insertAux_step h hl]
        exact ih ((s + 1) % DEDUP_TABLE_SIZE)
      · rw [insertAux_of_dead h (by omega)]
        exact Or.inr ⟨s, rfl⟩

/-- A successful search returns an entry whose stored fingerprint
strncmp-matches the query; the owner inode field plays no role in the
match condition. -/
theorem searchAux_matches {t : CryptTable} {f : List Nat} :
    ∀ fuel s e, searchAux t f fuel s = some e →
      strncmp e.fingerprint_crypt f 16 = 0 := by
  intro fuel
  induction fuel with
  | zero =>
    intro s e h
    rcases ht : t s with _ | it
    · rw [searchAux_of_none ht] at h
      exact absurd h (by simp)
    · by_cases hm : strncmp it.fingerprint_crypt f 16 = 0
      · rw [searchAux_match ht hm] at h
        injection h with h2
        rw [← h2]
        exact hm
      · rw [searchAux_exhaust ht hm] at h
        exact absurd h (by simp)
  | succ fu ih =>
    intro s e h
    rcases ht : t s with _ | it
    · rw [searchAux_of_none ht] at h
      exact absurd h (by simp)
    · by_cases hm : strncmp it.fingerprint_crypt f 16 = 0
      · rw [searchAux_match ht hm] at h
        injection h with h2
        rw [← h2]
        exact hm
      · rw [searchAux_step ht hm] at h
        exact ih _ e h

/-- When a search came back not-found, every slot it can have walked over
(an allocated prefix of the probe sequence) fails the strncmp match. -/
theorem searchAux_none_nonmatch {t : CryptTable} {f : List Nat} :
    ∀ fuel s j, s < DEDUP_TABLE_SIZE → searchAux t f fuel s = none → j ≤ fuel →
      (∀ k, k < j → t ((s + k) % DEDUP_TABLE_SIZE) ≠ none) →
      ∀ i, i < j → ∀ e, t ((s + i) % DEDUP_TABLE_SIZE) = some e →
        strncmp e.fingerprint_crypt f 16 ≠ 0 := by
  intro fuel
  induction fuel with
  | zero =>
    intro s j hs hnone hj hocc i hi e he
    omega
  | succ fu ih =>
    intro s j hs hnone hj hocc i hi e he
    rcases ht : t s with _ | it
    · have h0 := hocc 0 (by omega)
      rw [probe_zero hs, ht] at h0
      exact absurd rfl h0
    · by_cases hm : strncmp it.fingerprint_crypt f 16 = 0
      · rw [searchAux_match ht hm] at hnone
        exact absurd hnone (by simp)
      · cases i with
        | zero =>
          rw [probe_zero hs, ht] at he
          injection he with h2
          rw [← h2]
          exact hm
        | succ i2 =>
          rw [searchAux_step ht hm] at hnone
          refine ih ((s + 1) % DEDUP_TABLE_SIZE) (j - 1) (Nat.mod_lt _ dedup_pos)
            hnone (by omega) (fun k hk => ?_) i2 (by omega) e ?_
          · have hocck := hocc (k + 1) (by omega)
            rwa [← probe_shift] at hocck
          · rwa [← probe_shift] at he

/-- If the probe sequence passes only allocated non-matching slots up to
position j, where a matching entry sits, the search returns that entry. -/
theorem searchAux_finds {t : CryptTable} {f : List Nat} :
    ∀ j fuel s e, s < DEDUP_TABLE_SIZE → j ≤ fuel →
      (∀ i, i < j → ∃ it, t ((s + i) % DEDUP_TABLE_SIZE) = some it ∧
        strncmp it.fingerprint_crypt f 16 ≠ 0) →
      t ((s + j) % DEDUP_TABLE_SIZE) = some e →
      strncmp e.fingerprint_crypt f 16 = 0 →
      searchAux t f fuel s = some e := by
  intro j
  induction j with
  | zero =>
    intro fuel s e hs _ _ hj hm
    rw [probe_zero hs] at hj
    exact searchAux_match hj hm
  | succ j2 ih =>
    intro fuel s e hs hjf hpre hj hm
    obtain ⟨it, hit, hitm⟩ := hpre 0 (Nat.succ_pos j2)
    rw [probe_zero hs] at hit
    cases fuel with
    | zero => omega
    | succ fu =>
      rw [searchAux_step hit hitm]
      refine ih fu ((s + 1) % DEDUP_TABLE_SIZE) e (Nat.mod_lt _ dedup_pos)
        (by omega) (fun i hi => ?_) ?_ hm
      · obtain ⟨it2, h2, h2m⟩ := hpre (i + 1) (by omega)
        rw [← probe_shift] at h2
        exact ⟨it2, h2, h2m⟩
      · rwa [← probe_shift] at hj

/-- If the table has no strncmp match for the fingerprint (crypt_search
not-found) and crypttable_insert succeeds, a subsequent crypt_search finds
the freshly stored entry, whose fingerprint is the strncpy image of the
query and whose owner is the inserted inode. -/
theorem crypt_search_after_insert {t : CryptTable} {f : List Nat} {ino : Nat}
    (hs : crypt_search t f = none)
    (hr : (crypttable_insert t f ino).2 = 0) :
    crypt_search (crypttable_insert t f ino).1 f = some ⟨strncpy f 16, ino⟩ := by
  have hh := hashCrypt_lt f
  obtain ⟨j, hj, hpre, hfree, heq⟩ :=
    ((insertAux_spec t ⟨strncpy f 16, ino⟩ DEDUP_TABLE_SIZE (hashCrypt f) hh).1) hr
  have hocc : ∀ k, k < j →
      t ((hashCrypt f + k) % DEDUP_TABLE_SIZE) ≠ none := by
    intro k hk
    have hlk := hpre k hk
    cases htk : t ((hashCrypt f + k) % DEDUP_TABLE_SIZE) with
    | none =>
      rw [htk] at hlk
      exact absurd hlk (by simp [slotLive])
    | some _ => simp
  have hnm := searchAux_none_nonmatch DEDUP_TABLE_SIZE (hashCrypt f) j hh hs hj hocc
  have hppre : ∀ i, i < j →
      (hashCrypt f + i) % DEDUP_TABLE_SIZE ≠
        (hashCrypt f + j) % DEDUP_TABLE_SIZE := by
    intro i hi hEq
    have hlive := hpre i hi
    rw [hEq] at hlive
    exact hfree hlive
  show searchAux (insertAux t ⟨strncpy f 16, ino⟩ DEDUP_TABLE_SIZE (hashCrypt f)).1
      f DEDUP_TABLE_SIZE (hashCrypt f) = some ⟨strncpy f 16, ino⟩
  rw [heq]
  refine searchAux_finds j DEDUP_TABLE_SIZE (hashCrypt f) _ hh hj
    (fun i hi => ?_) ?_ ?_
  · have hup := updateTable_other t ((hashCrypt f + j) % DEDUP_TABLE_SIZE)
      ⟨strncpy f 16, ino⟩ (hppre i hi)
    cases hit : t ((hashCrypt f + i) % DEDUP_TABLE_SIZE) with
    | none =>
      have hlk := hpre i hi
      rw [hit] at hlk
      exact absurd hlk (by simp [slotLive])
    | some it =>
      exact ⟨it, by rw [hup, hit], hnm i hi it hit⟩
  · rw [updateTable_same]
  · exact strncmp_strncpy 16 f

/-- The loop reaches a done state within fuel + 1 iterations, and the value
it halts with is the one the fuel-indexed embedding computes. -/
theorem searchStep_reaches (t : CryptTable) (finger : List Nat) :
    ∀ fuel s, fuel ≤ DEDUP_TABLE_SIZE →
      ∃ n, n ≤ fuel + 1 ∧
        (searchStep t finger)^[n]
            (SearchProg.running s (DEDUP_TABLE_SIZE - fuel)) =
          SearchProg.done (searchAux t finger fuel s) := by
  intro fuel
  induction fuel with
  | zero =>
    intro s _
    refine ⟨1, by omega, ?_⟩
    rcases ht : t s with _ | it
    · simp [searchStep, ht, searchAux_of_none ht]
    · by_cases hm : strncmp it.fingerprint_crypt finger 16 = 0
      · simp [searchStep, ht, hm, searchAux_match ht hm]
      · have hstep1 : searchStep t finger
            (SearchProg.running s (DEDUP_TABLE_SIZE - 0)) = SearchProg.done none := by
          simp only [searchStep, ht, if_neg hm]
          rw [if_pos (by omega)]
        rw [Function.iterate_one, hstep1, searchAux_exhaust ht hm]
  | succ fu ih =>
    intro s hf
    rcases ht : t s with _ | it
    · exact ⟨1, by omega, by simp [searchStep, ht, searchAux_of_none ht]⟩
    · by_cases hm : strncmp it.fingerprint_crypt finger 16 = 0
      · exact ⟨1, by omega, by simp [searchStep, ht, hm, searchAux_match ht hm]⟩
      · obtain ⟨n, hn, hrun⟩ := ih ((s + 1) % DEDUP_TABLE_SIZE) (by omega)
        refine ⟨n + 1, by omega, ?_⟩
        rw [Function.iterate_succ_apply]
        have hstep1 : searchStep t finger
            (SearchProg.running s (DEDUP_TABLE_SIZE - (fu + 1))) =
            SearchProg.running ((s + 1) % DEDUP_TABLE_SIZE)
              (DEDUP_TABLE_SIZE - (fu + 1) + 1) := by
          simp only [searchStep, ht, if_neg hm]
          rw [if_neg (by omega)]
        rw [hstep1, show DEDUP_TABLE_SIZE - (fu + 1) + 1 = DEDUP_TABLE_SIZE - fu by omega,
          searchAux_step ht hm]
        exact hrun

/-- Closed form of the size_t accumulation loop of hashCrypt. -/
theorem foldl_mod_sum : ∀ (l : List Nat) (a : Nat),
    l.foldl (fun h b => (h + charToSizeT b) % U64) (a % U64) =
      (a + (l.map charToSizeT).sum) % U64 := by
  intro l
  induction l with
  | nil =>
    intro a
    simp
  | cons c cs ih =>
    intro a
    simp only [List.foldl_cons, List.map_cons, List.sum_cons]
    rw [Nat.mod_add_mod, ih (a + charToSizeT c)]
    congr 1
    omega

/-- The table size divides the size_t modulus, so the intermediate size_t
wrap-around is invisible after the final reduction. -/
theorem dedup_dvd_u64 : DEDUP_TABLE_SIZE ∣ U64 :=
  ⟨2 ^ 44, by norm_num [U64, DEDUP_TABLE_SIZE]⟩

/-- hashCrypt is the plain sum of the sign-extended byte values, reduced
modulo the table size. -/
theorem hashCrypt_eq_sum_mod (finger : List Nat) :
    hashCrypt finger = (finger.map charToSizeT).sum % DEDUP_TABLE_SIZE := by
  unfold hashCrypt
  have h := foldl_mod_sum finger 0
  rw [Nat.zero_mod] at h
  rw [h, Nat.zero_add]
  exact Nat.mod_mod_of_dvd _ dedup_dvd_u64

/-- Each sign-extended size_t byte value is congruent, modulo the table
size, to the signed value of the byte. -/
theorem charToSizeT_int_emod (b : Nat) :
    (charToSizeT b : Int) % (DEDUP_TABLE_SIZE : Int) =
      signedByte b % (DEDUP_TABLE_SIZE : Int) := by
  unfold charToSizeT signedByte
  by_cases hb : b < 128
  · simp [hb]
  · rw [if_neg hb, if_neg hb]
    have h256 : (256 : Nat) ≤ U64 := by norm_num [U64]
    have hcast : ((U64 - 256 + b : Nat) : Int) = (U64 : Int) + ((b : Int) - 256) := by
      push_cast [Nat.cast_sub h256]
      ring
    have hu : (U64 : Int) = (DEDUP_TABLE_SIZE : Int) * 2 ^ 44 := by
      norm_num [U64, DEDUP_TABLE_SIZE]
    rw [hcast, hu, add_comm, Int.add_mul_emod_self_left]

/-- Summed congruence: the sign-extended sum and the signed sum agree
modulo the table size. -/
theorem map_sum_emod (finger : List Nat) :
    (((finger.map charToSizeT).sum : Nat) : Int) % (DEDUP_TABLE_SIZE : Int) =
      (finger.map signedByte).sum % (DEDUP_TABLE_SIZE : Int) := by
  induction finger with
  | nil => simp
  | cons c cs ih =>
    simp only [List.map_cons, List.sum_cons, Nat.cast_add]
    rw [Int.add_emod, charToSizeT_int_emod, ih, ← Int.add_emod]

/-- After a reload every slot inside the table is physically present. -/
theorem reloadTable_isSome (junk : List Nat) (arr : CryptTable)
    (store : Nat → Option Cryptitem) :
    ∀ i, i < DEDUP_TABLE_SIZE → reloadTable junk arr store i ≠ none := by
  intro i hi
  simp only [reloadTable, if_pos hi]
  rcases store i with _ | r
  · rcases arr i with _ | o <;> simp
  · simp

/-- An insert preserves physical presence of every slot. -/
theorem insert_preserves_isSome {t : CryptTable} {f : List Nat} {ino : Nat}
    (h : ∀ i, i < DEDUP_TABLE_SIZE → t i ≠ none) :
    ∀ i, i < DEDUP_TABLE_SIZE → (crypttable_insert t f ino).1 i ≠ none := by
  intro i hi
  unfold crypttable_insert
  rcases insertAux_result t ⟨strncpy f 16, ino⟩ DEDUP_TABLE_SIZE (hashCrypt f)
    with he | ⟨p, he⟩
  · rw [he]
    exact h i hi
  · rw [he]
    unfold updateTable
    by_cases hip : i = p
    · simp [hip]
    · simp only [if_neg hip]
      exact h i hi

/-- Reloading from the store written by a full write-back of an array with
every slot present gives back exactly that array. -/
theorem reload_writeBack (junk : List Nat) (arr : CryptTable)
    (store : Nat → Option Cryptitem)
    (h : ∀ i, i < DEDUP_TABLE_SIZE → arr i ≠ none) :
    reloadTable junk arr (writeBackStore arr store) = arr := by
  funext i
  by_cases hi : i < DEDUP_TABLE_SIZE
  · simp only [reloadTable, writeBackStore, if_pos hi]
    rcases ha : arr i with _ | r
    · exact absurd ha (h i hi)
    · rfl
  · simp [reloadTable, hi]

/-- A second full write-back of the same array changes nothing. -/
theorem writeBack_writeBack (arr : CryptTable)
    (store : Nat → Option Cryptitem) :
    writeBackStore arr (writeBackStore arr store) = writeBackStore arr store := by
  funext i
  unfold writeBackStore
  by_cases hi : i < DEDUP_TABLE_SIZE <;> simp [hi]

/-- Case equation of the post-step when the search finds an entry: no
insert happens, the reloaded array is written back whole. -/
theorem encrypt_post_step_found {junk d : List Nat} {st : CryptState}
    {ino : Nat} {e : Cryptitem}
    (h : crypt_search (reloadTable junk st.arr st.store) d = some e) :
    encrypt_post_step junk st d ino =
      (⟨reloadTable junk st.arr st.store,
        writeBackStore (reloadTable junk st.arr st.store) st.store⟩, none) := by
  unfold encrypt_post_step
  rw [h]

/-- Case equation of the post-step when the search finds nothing: the
insert is called and the resulting array is written back whole. -/
theorem encrypt_post_step_notfound {junk d : List Nat} {st : CryptState}
    {ino : Nat}
    (h : crypt_search (reloadTable junk st.arr st.store) d = none) :
    encrypt_post_step junk st d ino =
      (⟨(crypttable_insert (reloadTable junk st.arr st.store) d ino).1,
        writeBackStore
          (crypttable_insert (reloadTable junk st.arr st.store) d ino).1
          st.store⟩,
        some (crypttable_insert (reloadTable junk st.arr st.store) d ino).2) := by
  unfold encrypt_post_step
  rw [h]

/-- The store written by the encrypt post-step is the full write-back of
the in-memory array the post-step ends with, whether or not an insert
occurred. -/
theorem encrypt_post_step_store (junk : List Nat) (st : CryptState)
    (digest : List Nat) (ino : Nat) :
    (encrypt_post_step junk st digest ino).1.store =
      writeBackStore (encrypt_post_step junk st digest ino).1.arr st.store := by
  rcases h : crypt_search (reloadTable junk st.arr st.store) digest with _ | e
  · rw [encrypt_post_step_notfound h]
  · rw [encrypt_post_step_found h]

/-- Running the encrypt post-step twice with the same digest and owner
leaves both the in-memory table and the backing store exactly as after the
first run, and the second run calls no insert unless the first run's
insert already failed with a full table (in which case the repeated insert
writes nothing either). -/
theorem encrypt_post_step_twice (junk d : List Nat) (st : CryptState)
    (ino : Nat) :
    (encrypt_post_step junk (encrypt_post_step junk st d ino).1 d ino).1.arr =
      (encrypt_post_step junk st d ino).1.arr ∧
    (encrypt_post_step junk (encrypt_post_step junk st d ino).1 d ino).1.store =
      (encrypt_post_step junk st d ino).1.store ∧
    ((encrypt_post_step junk st d ino).2 ≠ some 1 →
      (encrypt_post_step junk (encrypt_post_step junk st d ino).1 d ino).2 =
        none) := by
  have ha1 := reloadTable_isSome junk st.arr st.store
  cases hfound : crypt_search (reloadTable junk st.arr st.store) d with
  | some e =>
    have h1a : (encrypt_post_step junk st d ino).1 =
        ⟨reloadTable junk st.arr st.store,
          writeBackStore (reloadTable junk st.arr st.store) st.store⟩ := by
      rw [encrypt_post_step_found hfound]
    have hre : reloadTable junk (reloadTable junk st.arr st.store)
        (writeBackStore (reloadTable junk st.arr st.store) st.store) =
        reloadTable junk st.arr st.store :=
      reload_writeBack junk _ st.store ha1
    have hf2 : crypt_search (reloadTable junk (reloadTable junk st.arr st.store)
        (writeBackStore (reloadTable junk st.arr st.store) st.store)) d =
        some e := by
      rw [hre]
      exact hfound
    have h2 : encrypt_post_step junk
        (⟨reloadTable junk st.arr st.store,
          writeBackStore (reloadTable junk st.arr st.store) st.store⟩ :
            CryptState) d ino =
        (⟨reloadTable junk st.arr st.store,
          writeBackStore (reloadTable junk st.arr st.store)
            (writeBackStore (reloadTable junk st.arr st.store) st.store)⟩,
          none) := by
      rw [encrypt_post_step_found hf2, hre]
    refine ⟨?_, ?_, fun _ => ?_⟩
    · rw [h1a, h2]
    · rw [h1a, h2]
      exact writeBack_writeBack _ _
    · rw [h1a, h2]
  | none =>
    by_cases hr :
        (crypttable_insert (reloadTable junk st.arr st.store) d ino).2 = 0
    · have hafter := crypt_search_after_insert hfound hr
      have hsome2 := @insert_preserves_isSome
        (reloadTable junk st.arr st.store) d ino ha1
      have h1a : (encrypt_post_step junk st d ino).1 =
          ⟨(crypttable_insert (reloadTable junk st.arr st.store) d ino).1,
            writeBackStore
              (crypttable_insert (reloadTable junk st.arr st.store) d ino).1
              st.store⟩ := by
        rw [encrypt_post_step_notfound hfound]
      have hre : reloadTable junk
          (crypttable_insert (reloadTable junk st.arr st.store) d ino).1
          (writeBackStore
            (crypttable_insert (reloadTable junk st.arr st.store) d ino).1
            st.store) =
          (crypttable_insert (reloadTable junk st.arr st.store) d ino).1 :=
        reload_writeBack junk _ st.store hsome2
      have hf2 : crypt_search (reloadTable junk
          (crypttable_insert (reloadTable junk st.arr st.store) d ino).1
          (writeBackStore
            (crypttable_insert (reloadTable junk st.arr st.store) d ino).1
            st.store)) d = some ⟨strncpy d 16, ino⟩ := by
        rw [hre]
        exact hafter
      have h2 : encrypt_post_step junk
          (⟨(crypttable_insert (reloadTable junk st.arr st.store) d ino).1,
            writeBackStore
              (crypttable_insert (reloadTable junk st.arr st.store) d ino).1
              st.store⟩ : CryptState) d ino =
          (⟨(crypttable_insert (reloadTable junk st.arr st.store) d ino).1,
            writeBackStore
              (crypttable_insert (reloadTable junk st.arr st.store) d ino).1
              (writeBackStore
                (crypttable_insert (reloadTable junk st.arr st.store) d ino).1
                st.store)⟩, none) := by
        rw [encrypt_post_step_found hf2, hre]
      refine ⟨?_, ?_, fun _ => ?_⟩
      · rw [h1a, h2]
      · rw [h1a, h2]
        exact writeBack_writeBack _ _
      · rw [h1a, h2]
    · obtain ⟨heq, _⟩ := ((insertAux_spec (reloadTable junk st.arr st.store)
        ⟨strncpy d 16, ino⟩ DEDUP_TABLE_SIZE (hashCrypt d)
        (hashCrypt_lt d)).2) hr
      have heq2 : crypttable_insert (reloadTable junk st.arr st.store) d ino =
          (reloadTable junk st.arr st.store, 1) := heq
      have h1a : (encrypt_post_step junk st d ino).1 =
          ⟨reloadTable junk st.arr st.store,
            writeBackStore (reloadTable junk st.arr st.store) st.store⟩ := by
        rw [encrypt_post_step_notfound hfound, heq2]
      have h1b : (encrypt_post_step junk st d ino).2 = some 1 := by
        rw [encrypt_post_step_notfound hfound, heq2]
      have hre : reloadTable junk (reloadTable junk st.arr st.store)
          (writeBackStore (reloadTable junk st.arr st.store) st.store) =
          reloadTable junk st.arr st.store :=
        reload_writeBack junk _ st.store ha1
      have hf2 : crypt_search (reloadTable junk
          (reloadTable junk st.arr st.store)
          (writeBackStore (reloadTable junk st.arr st.store) st.store)) d =
          none := by
        rw [hre]
        exact hfound
      have h2 : encrypt_post_step junk
          (⟨reloadTable junk st.arr st.store,
            writeBackStore (reloadTable junk st.arr st.store) st.store⟩ :
              CryptState) d ino =
          (⟨reloadTable junk st.arr st.store,
            writeBackStore (reloadTable junk st.arr st.store)
              (writeBackStore (reloadTable junk st.arr st.store) st.store)⟩,
            some 1) := by
        rw [encrypt_post_step_notfound hf2, hre, heq2]
      refine ⟨?_, ?_, fun hc => absurd h1b hc⟩
      · rw [h1a, h2]
      · rw [h1a, h2]
        exact writeBack_writeBack _ _

/-- The next probe position differs from the current one (the table has at
least two slots). -/
theorem probe_next_ne {s : Nat} (hs : s < DEDUP_TABLE_SIZE) :
    (s + 1) % DEDUP_TABLE_SIZE ≠ s := by
  have hC2 : 2 ≤ DEDUP_TABLE_SIZE := by norm_num [DEDUP_TABLE_SIZE]
  by_cases h : s + 1 < DEDUP_TABLE_SIZE
  · rw [Nat.mod_eq_of_lt h]
    omega
  · have hEq : s + 1 = DEDUP_TABLE_SIZE := by omega
    rw [hEq, Nat.mod_self]
    omega

/-- Variant of the search advance step for an unstructured fuel value. -/
theorem searchAux_step_of_pos {t : CryptTable} {f : List Nat} {fuel s : Nat}
    {it : Cryptitem} (h : t s = some it)
    (hm : ¬ strncmp it.fingerprint_crypt f 16 = 0) (hf : fuel ≠ 0) :
    searchAux t f fuel s =
      searchAux t f (fuel - 1) ((s + 1) % DEDUP_TABLE_SIZE) := by
  cases fuel with
  | zero => exact absurd rfl hf
  | succ fu => simpa using searchAux_step h hm

/-- Variant of the insert advance step for an unstructured fuel value. -/
theorem insertAux_step_of_pos {t : CryptTable} {item : Cryptitem} {fuel s : Nat}
    {old : Cryptitem} (h : t s = some old) (hl : old.ino > 0) (hf : fuel ≠ 0) :
    insertAux t item fuel s =
      insertAux t item (fuel - 1) ((s + 1) % DEDUP_TABLE_SIZE) := by
  cases fuel with
  | zero => exact absurd rfl hf
  | succ fu => simpa using insertAux_step h hl

/-- crypt_search returns not-found when the home slot is NULL. -/
theorem crypt_search_of_none {t : CryptTable} {f : List Nat}
    (h : t (hashCrypt f) = none) : crypt_search t f = none :=
  searchAux_of_none h

/-- crypt_search returns the home-slot entry when it strncmp-matches. -/
theorem crypt_search_match {t : CryptTable} {f : List Nat} {it : Cryptitem}
    (h : t (hashCrypt f) = some it)
    (hm : strncmp it.fingerprint_crypt f 16 = 0) :
    crypt_search t f = some it :=
  searchAux_match h hm

/-- C1 counterexample: fpA and fpB are distinct 16-byte fingerprints, yet
after inserting fpA with owner 7 and then running the encrypt path's
search-then-insert for fpB with owner 9, a search for fpB returns the
entry stored for fpA: its fingerprint is the strncpy truncation of fpA
(not fpB, and not even fpA) and its owner is 7, not 9.  The strncmp the
search uses stops at the NUL at offset 1, so the comparison is not
byte-for-byte over all 16 bytes and the claim fails. -/
theorem collision_loses_second_owner :
    fpA ≠ fpB ∧
    crypt_search (searchThenInsert (searchThenInsert emptyTable fpA 7) fpB 9)
        fpB = some ⟨3 :: List.replicate 15 0, 7⟩ ∧
    (3 :: List.replicate 15 0 ≠ fpB) ∧ (7 ≠ 9) := by
  exact ⟨by decide, by decide, by decide, by decide⟩

/-- C1 amended: for distinct NUL-free 16-byte fingerprints with positive
owners, inserting both into an empty table through the encrypt path's
search-then-insert makes each search return its own entry (fingerprint
stored verbatim, correct owner), including when the hashes collide; the
claim holds regardless of insertion order because the statement is
symmetric under swapping the two instantiating pairs.  On NUL-free
fingerprints the strncmp the search performs does compare all 16 bytes. -/
theorem nul_free_inserts_retrievable (f1 f2 : List Nat) (o1 o2 : Nat)
    (hl1 : f1.length = 16) (hl2 : f2.length = 16)
    (hz1 : ∀ b ∈ f1, b ≠ 0) (hz2 : ∀ b ∈ f2, b ≠ 0)
    (hne : f1 ≠ f2) (ho1 : 0 < o1) (ho2 : 0 < o2) :
    crypt_search (searchThenInsert (searchThenInsert emptyTable f1 o1) f2 o2)
        f1 = some ⟨f1, o1⟩ ∧
    crypt_search (searchThenInsert (searchThenInsert emptyTable f1 o1) f2 o2)
        f2 = some ⟨f2, o2⟩ := by
  have hC : DEDUP_TABLE_SIZE ≠ 0 := by decide
  have hcpy1 : strncpy f1 16 = f1 := strncpy_of_no_nul 16 f1 hl1 hz1
  have hcpy2 : strncpy f2 16 = f2 := strncpy_of_no_nul 16 f2 hl2 hz2
  have h11 : strncmp f1 f1 16 = 0 := strncmp_self 16 f1
  have h22 : strncmp f2 f2 16 = 0 := strncmp_self 16 f2
  have h12 : strncmp f1 f2 16 ≠ 0 := strncmp_ne_of_ne 16 f1 f2 hl1 hl2 hz1 hne
  have hlt1 := hashCrypt_lt f1
  have hnext1 : (hashCrypt f1 + 1) % DEDUP_TABLE_SIZE ≠ hashCrypt f1 :=
    probe_next_ne hlt1
  have hs1 : crypt_search emptyTable f1 = none := crypt_search_of_none rfl
  have ht1 : searchThenInsert emptyTable f1 o1 =
      updateTable emptyTable (hashCrypt f1) ⟨f1, o1⟩ := by
    unfold searchThenInsert
    rw [if_pos hs1]
    unfold crypttable_insert
    rw [insertAux_of_none (show emptyTable (hashCrypt f1) = none from rfl),
      hcpy1]
  have ht1at : updateTable emptyTable (hashCrypt f1) ⟨f1, o1⟩ (hashCrypt f1) =
      some ⟨f1, o1⟩ := updateTable_same _ _ _
  have hs2 : crypt_search (updateTable emptyTable (hashCrypt f1) ⟨f1, o1⟩) f2 =
      none := by
    unfold crypt_search
    by_cases hh : hashCrypt f2 = hashCrypt f1
    · rw [hh, searchAux_step_of_pos ht1at h12 hC]
      exact searchAux_of_none (by
        rw [updateTable_other _ _ _ hnext1]
        rfl)
    · exact searchAux_of_none (by
        rw [updateTable_other _ _ _ hh]
        rfl)
  rw [ht1]
  by_cases hh : hashCrypt f2 = hashCrypt f1
  · have ht2 : searchThenInsert
        (updateTable emptyTable (hashCrypt f1) ⟨f1, o1⟩) f2 o2 =
        updateTable (updateTable emptyTable (hashCrypt f1) ⟨f1, o1⟩)
          ((hashCrypt f1 + 1) % DEDUP_TABLE_SIZE) ⟨f2, o2⟩ := by
      unfold searchThenInsert
      rw [if_pos hs2]
      unfold crypttable_insert
      rw [hh, insertAux_step_of_pos ht1at ho1 hC,
        insertAux_of_none (by
          rw [updateTable_other _ _ _ hnext1]
          rfl), hcpy2]
    rw [ht2]
    constructor
    · refine crypt_search_match ?_ h11
      rw [updateTable_other _ _ _ (Ne.symm hnext1)]
      exact ht1at
    · unfold crypt_search
      rw [hh, @searchAux_step_of_pos
        (updateTable (updateTable emptyTable (hashCrypt f1) ⟨f1, o1⟩)
          ((hashCrypt f1 + 1) % DEDUP_TABLE_SIZE) ⟨f2, o2⟩) f2
        DEDUP_TABLE_SIZE (hashCrypt f1) ⟨f1, o1⟩ (by
          rw [updateTable_other _ _ _ (Ne.symm hnext1)]
          exact ht1at) h12 hC]
      exact searchAux_match (updateTable_same _ _ _) h22
  · have ht2 : searchThenInsert
        (updateTable emptyTable (hashCrypt f1) ⟨f1, o1⟩) f2 o2 =
        updateTable (updateTable emptyTable (hashCrypt f1) ⟨f1, o1⟩)
          (hashCrypt f2) ⟨f2, o2⟩ := by
      unfold searchThenInsert
      rw [if_pos hs2]
      unfold crypttable_insert
      rw [insertAux_of_none (by
        rw [updateTable_other _ _ _ hh]
        rfl), hcpy2]
    rw [ht2]
    constructor
    · refine crypt_search_match ?_ h11
      rw [updateTable_other _ _ _ (Ne.symm hh)]
      exact ht1at
    · exact crypt_search_match (updateTable_same _ _ _) h22

/-- C1 witness: the amended theorem applied to two concrete NUL-free
fingerprints with owners 7 and 9. -/
theorem nul_free_inserts_retrievable_witness :
    crypt_search (searchThenInsert
        (searchThenInsert emptyTable (List.replicate 16 1) 7)
        (List.replicate 16 2) 9) (List.replicate 16 1) =
      some ⟨List.replicate 16 1, 7⟩ ∧
    crypt_search (searchThenInsert
        (searchThenInsert emptyTable (List.replicate 16 1) 7)
        (List.replicate 16 2) 9) (List.replicate 16 2) =
      some ⟨List.replicate 16 2, 9⟩ :=
  nul_free_inserts_retrievable (List.replicate 16 1) (List.replicate 16 2) 7 9
    (by decide) (by decide) (by decide) (by decide) (by decide) (by decide)
    (by decide)

/-- C2 counterexample: inserting a fingerprint with an interior NUL stores
the strncpy truncation, not the fingerprint itself.  The insert for fpC
succeeds, but the written slot holds the byte 1 followed by fifteen NULs,
which differs from fpC at offset 2, so the stored entry does not equal the
fingerprint in all 16 bytes. -/
theorem insert_stores_truncated_fingerprint :
    (crypttable_insert emptyTable fpC 5).2 = 0 ∧
    (crypttable_insert emptyTable fpC 5).1 (hashCrypt fpC) =
      some ⟨1 :: List.replicate 15 0, 5⟩ ∧
    (1 :: List.replicate 15 0) ≠ fpC := by
  exact ⟨by decide, by decide, by decide⟩

/-- C2 amended: crypttable_insert probes linearly from the hash slot,
advancing only across slots that are physically present and logically
occupied; on success it overwrites the first slot that is physically or
logically empty — never a live entry — with an entry holding the strncpy
image of the fingerprint (equal to it in all 16 bytes only when the
fingerprint has no interior NUL) and the given owner, returning 0; it
returns the IndexFull code 1, with the table unchanged, exactly when every
one of the DEDUP_TABLE_SIZE + 1 slots the guard lets it probe is live, so
the probe is bounded and never loops forever. -/
theorem crypttable_insert_probe_spec (t : CryptTable) (finger : List Nat)
    (ino : Nat) :
    ((crypttable_insert t finger ino).2 = 0 →
      ∃ j, j ≤ DEDUP_TABLE_SIZE ∧
        (∀ i, i < j →
          slotLive (t ((hashCrypt finger + i) % DEDUP_TABLE_SIZE))) ∧
        ¬ slotLive (t ((hashCrypt finger + j) % DEDUP_TABLE_SIZE)) ∧
        (crypttable_insert t finger ino).1 =
          updateTable t ((hashCrypt finger + j) % DEDUP_TABLE_SIZE)
            ⟨strncpy finger 16, ino⟩) ∧
    ((crypttable_insert t finger ino).2 ≠ 0 →
      crypttable_insert t finger ino = (t, 1) ∧
        ∀ i, i ≤ DEDUP_TABLE_SIZE →
          slotLive (t ((hashCrypt finger + i) % DEDUP_TABLE_SIZE))) :=
  insertAux_spec t ⟨strncpy finger 16, ino⟩ DEDUP_TABLE_SIZE
    (hashCrypt finger) (hashCrypt_lt finger)

/-- C2 witness: the probe characterization applied to a concrete insert
into the empty table, whose success hypothesis holds by evaluation. -/
theorem crypttable_insert_probe_spec_witness :
    (crypttable_insert emptyTable fpC 5).2 = 0 ∧
    ∃ j, j ≤ DEDUP_TABLE_SIZE ∧
      (∀ i, i < j →
        slotLive (emptyTable ((hashCrypt fpC + i) % DEDUP_TABLE_SIZE))) ∧
      ¬ slotLive (emptyTable ((hashCrypt fpC + j) % DEDUP_TABLE_SIZE)) ∧
      (crypttable_insert emptyTable fpC 5).1 =
        updateTable emptyTable ((hashCrypt fpC + j) % DEDUP_TABLE_SIZE)
          ⟨strncpy fpC 16, 5⟩ :=
  ⟨by decide, (crypttable_insert_probe_spec emptyTable fpC 5).1 (by decide)⟩

/-- C3 (confirmed): the crypt_search loop always halts.  Iterating its
body from the initial state reaches a done state in at most
DEDUP_TABLE_SIZE + 1 iterations, and the value it halts with is exactly
what the bounded embedding crypt_search computes: not-found at a NULL slot
or on guard exhaustion after more than DEDUP_TABLE_SIZE advances, the
matching entry otherwise. -/
theorem crypt_search_terminates (t : CryptTable) (finger : List Nat) :
    ∃ n, n ≤ DEDUP_TABLE_SIZE + 1 ∧
      (searchStep t finger)^[n] (SearchProg.running (hashCrypt finger) 0) =
        SearchProg.done (crypt_search t finger) := by
  have h := searchStep_reaches t finger DEDUP_TABLE_SIZE (hashCrypt finger)
    (le_refl _)
  rwa [Nat.sub_self] at h

/-- C4 counterexample: on the fingerprint whose first byte is 0xFF the
code's hash is 1048575 (the char sign-extends through the size_t cast),
not the value 255 that summing the bytes as unsigned integers would give,
so hashCrypt is not the unsigned byte sum modulo the table size. -/
theorem hashCrypt_not_unsigned_sum :
    hashCrypt (255 :: List.replicate 15 0) = 1048575 ∧
    specHashUnsigned (255 :: List.replicate 15 0) = 255 ∧
    hashCrypt (255 :: List.replicate 15 0) ≠
      specHashUnsigned (255 :: List.replicate 15 0) := by
  exact ⟨by decide, by decide, by decide⟩

/-- C4 amended: hashCrypt equals the sum of the fingerprint's 16 bytes
read as SIGNED char values (the x86-64 Linux ABI sign-extends the cast to
size_t), reduced modulo the table size 1048576; in particular the result
is always below the table size. -/
theorem hashCrypt_signed_sum (finger : List Nat) :
    (hashCrypt finger : Int) =
      (finger.map signedByte).sum % (DEDUP_TABLE_SIZE : Int) ∧
    hashCrypt finger < DEDUP_TABLE_SIZE := by
  constructor
  · rw [hashCrypt_eq_sum_mod, Int.natCast_mod]
    exact map_sum_emod finger
  · exact hashCrypt_lt finger

/-- C5 (confirmed): on every decrypt of a single block that passes the
length checks, fscrypt_crypt_block fingerprints the source (ciphertext)
page, queries the Logical-Block Recovery Index with that digest, and
derives the IV from the recovered lblk_num when an entry is found and from
the caller-supplied one unchanged otherwise. -/
theorem decrypt_overrides_lblk (env : CryptEnv) (st : CryptState)
    (inode : Inode) (lblk_num : Nat) (src_page dest_page : Page)
    (len offs : Nat) (hlen : len ≠ 0)
    (hal : len % FSCRYPT_CONTENTS_ALIGNMENT = 0) :
    (fscrypt_crypt_block env st inode .FS_DECRYPT lblk_num src_page dest_page
        len offs).ivLblk =
      some (match env.finger_crypt_search (env.hash_page_data src_page) with
        | some item => item.lblk_num
        | none => lblk_num) := by
  simp only [fscrypt_crypt_block]
  rw [if_neg hlen, if_neg (by simp [hal])]
  split_ifs <;> simp

/-- C5 witness: the override theorem applied at a concrete decrypt whose
recovery-index lookup hits, with both length hypotheses evaluated. -/
theorem decrypt_overrides_lblk_witness :
    (16 : Nat) ≠ 0 ∧ (16 : Nat) % FSCRYPT_CONTENTS_ALIGNMENT = 0 ∧
    (fscrypt_crypt_block envW stW inodeW .FS_DECRYPT 5 pageW pageW 16
        0).ivLblk =
      some (match envW.finger_crypt_search (envW.hash_page_data pageW) with
        | some item => item.lblk_num
        | none => 5) :=
  ⟨by decide, by decide,
    decrypt_overrides_lblk envW stW inodeW 5 pageW pageW 16 0 (by decide)
      (by decide)⟩

/-- C6 (confirmed): in the page-level decrypt with a locked page and valid
length, after the ownership index is reloaded from its backing store the
key context used for the per-block decrypts is the inode f2fs_iget
resolves from the owner of the entry the digest search finds, or the
originally addressed host inode when nothing is found. -/
theorem decrypt_switches_key_context (env : CryptEnv) (st : CryptState)
    (page : Page) (len offs : Nat) (hlock : page.locked = true)
    (hlen : len ≠ 0)
    (hal : (len ||| offs) % 2 ^ page.host.i_blkbits = 0) :
    (fscrypt_decrypt_pagecache_blocks env st page len offs).usedInode =
      (match crypt_search (reloadTable env.junk st.arr st.store)
          (env.hash_page_data page) with
      | some item => env.f2fs_iget item.ino
      | none => page.host) := by
  simp only [fscrypt_decrypt_pagecache_blocks]
  rw [if_neg (by simp [hlock]), if_neg hlen, if_neg (by simp [hal])]

/-- C6 witness: the key-switch theorem applied at a concrete state whose
backing store owns the page digest under inode 42. -/
theorem decrypt_switches_key_context_witness :
    pageW.locked = true ∧ (4096 : Nat) ≠ 0 ∧
    ((4096 : Nat) ||| 0) % 2 ^ pageW.host.i_blkbits = 0 ∧
    (fscrypt_decrypt_pagecache_blocks envW stOwned pageW 4096 0).usedInode =
      (match crypt_search (reloadTable envW.junk stOwned.arr stOwned.store)
          (envW.hash_page_data pageW) with
      | some item => envW.f2fs_iget item.ino
      | none => pageW.host) :=
  ⟨by decide, by decide, by decide,
    decrypt_switches_key_context envW stOwned pageW 4096 0 (by decide)
      (by decide) (by decide)⟩

/-- C7 (confirmed): a decrypt never writes the ownership backing store —
the single-block decrypt leaves the whole ownership state untouched and
the page-level decrypt leaves the store contents untouched — while every
successful encrypt block operation ends with the backing store equal to
the full write-back of the entire in-memory C-entry array, whether or not
an insert occurred. -/
theorem decrypt_reads_encrypt_writes_store (env : CryptEnv) (st : CryptState)
    (inode : Inode) (lblk_num : Nat) (src_page dest_page : Page)
    (len offs : Nat) :
    (fscrypt_crypt_block env st inode .FS_DECRYPT lblk_num src_page dest_page
        len offs).state = st ∧
    (∀ page plen poffs,
      (fscrypt_decrypt_pagecache_blocks env st page plen poffs).state.store =
        st.store) ∧
    ((fscrypt_crypt_block env st inode .FS_ENCRYPT lblk_num src_page dest_page
        len offs).ret = 0 →
      (fscrypt_crypt_block env st inode .FS_ENCRYPT lblk_num src_page
          dest_page len offs).state.store =
        writeBackStore (fscrypt_crypt_block env st inode .FS_ENCRYPT lblk_num
            src_page dest_page len offs).state.arr st.store) := by
  refine ⟨?_, ?_, ?_⟩
  · simp only [fscrypt_crypt_block]
    split_ifs <;> rfl
  · intro page plen poffs
    simp only [fscrypt_decrypt_pagecache_blocks]
    split_ifs <;> rfl
  · intro hret
    simp only [fscrypt_crypt_block] at hret ⊢
    by_cases h1 : len = 0
    · rw [if_pos h1] at hret
      have h5 : (-22 : Int) = 0 := hret
      exact absurd h5 (by decide)
    · rw [if_neg h1] at hret ⊢
      by_cases h2 : len % FSCRYPT_CONTENTS_ALIGNMENT ≠ 0
      · rw [if_pos h2] at hret
        have h5 : (-22 : Int) = 0 := hret
        exact absurd h5 (by decide)
      · rw [if_neg h2] at hret ⊢
        by_cases h3 : env.req_alloc_ok = false
        · rw [if_pos h3] at hret
          have h5 : (-12 : Int) = 0 := hret
          exact absurd h5 (by decide)
        · rw [if_neg h3] at hret ⊢
          by_cases h4 : env.cipher_res ≠ 0
          · rw [if_pos h4] at hret
            have h5 : env.cipher_res = 0 := hret
            exact absurd h5 h4
          · rw [if_neg h4] at hret ⊢
            exact encrypt_post_step_store env.junk st
              (env.hash_page_data dest_page) inode.i_ino

/-- C7 witness: a concrete successful encrypt, its success hypothesis
evaluated, ends with the store equal to the full write-back. -/
theorem decrypt_reads_encrypt_writes_store_witness :
    (fscrypt_crypt_block envW stW inodeW .FS_ENCRYPT 0 pageW pageW 16
        0).ret = 0 ∧
    (fscrypt_crypt_block envW stW inodeW .FS_ENCRYPT 0 pageW pageW 16
        0).state.store =
      writeBackStore (fscrypt_crypt_block envW stW inodeW .FS_ENCRYPT 0 pageW
          pageW 16 0).state.arr stW.store :=
  ⟨rfl, (decrypt_reads_encrypt_writes_store envW stW inodeW 0 pageW pageW 16
    0).2.2 rfl⟩

/-- C8 counterexample: with zero length the decrypt block call fails with
-EINVAL as claimed, but its Logical-Block-Recovery-Index pre-step (the
unconditional finger/block table reload, followed by the digest query) has
already run before the checks ran; likewise the page-level decrypt opens
(creating it if absent) the backing file before its checks, observed here
on an unlocked page.  So precondition checking does not precede all index
work. -/
theorem precheck_after_index_work :
    (fscrypt_crypt_block envW stW inodeW .FS_DECRYPT 0 pageW pageW 0
        0).ret = -22 ∧
    (fscrypt_crypt_block envW stW inodeW .FS_DECRYPT 0 pageW pageW 0
        0).fingerTableReloaded = true ∧
    (fscrypt_decrypt_pagecache_blocks envW stW pageUnlockedW 4096 0).ret =
      -22 ∧
    (fscrypt_decrypt_pagecache_blocks envW stW pageUnlockedW 4096
        0).storeOpened = true :=
  ⟨rfl, rfl, rfl, rfl⟩

/-- C8 amended: the length preconditions are checked before any OWNERSHIP
index work, and on violation both paths fail fast with -EINVAL, leaving
the ownership table and the backing-store contents untouched, performing
no insert and deriving no IV; however, on the decrypt path the external
finger/block tables are reloaded and the recovery index queried before the
checks, and the page-level decrypt opens (creating if absent) the backing
file before the checks. -/
theorem precheck_fails_fast (env : CryptEnv) (st : CryptState) (inode : Inode)
    (lblk_num : Nat) (src_page dest_page : Page) (len offs : Nat)
    (rw : fscrypt_direction_t)
    (hbad : len = 0 ∨ len % FSCRYPT_CONTENTS_ALIGNMENT ≠ 0) :
    ((fscrypt_crypt_block env st inode rw lblk_num src_page dest_page len
        offs).ret = -22 ∧
      (fscrypt_crypt_block env st inode rw lblk_num src_page dest_page len
        offs).state = st ∧
      (fscrypt_crypt_block env st inode rw lblk_num src_page dest_page len
        offs).insertRet = none ∧
      (fscrypt_crypt_block env st inode rw lblk_num src_page dest_page len
        offs).ivLblk = none) ∧
    (∀ page plen poffs,
      plen = 0 ∨ (plen ||| poffs) % 2 ^ page.host.i_blkbits ≠ 0 ∨
        page.locked = false →
      (fscrypt_decrypt_pagecache_blocks env st page plen poffs).ret = -22 ∧
      (fscrypt_decrypt_pagecache_blocks env st page plen poffs).state = st) := by
  constructor
  · by_cases h0 : len = 0
    · simp only [fscrypt_crypt_block]
      rw [if_pos h0]
      exact ⟨rfl, rfl, rfl, rfl⟩
    · have hm : len % FSCRYPT_CONTENTS_ALIGNMENT ≠ 0 := hbad.resolve_left h0
      simp only [fscrypt_crypt_block]
      rw [if_neg h0, if_pos hm]
      exact ⟨rfl, rfl, rfl, rfl⟩
  · intro page plen poffs hpbad
    by_cases hl : page.locked = false
    · simp only [fscrypt_decrypt_pagecache_blocks]
      rw [if_pos hl]
      exact ⟨rfl, rfl⟩
    · by_cases hp0 : plen = 0
      · simp only [fscrypt_decrypt_pagecache_blocks]
        rw [if_neg hl, if_pos hp0]
        exact ⟨rfl, rfl⟩
      · have hpm : (plen ||| poffs) % 2 ^ page.host.i_blkbits ≠ 0 := by
          rcases hpbad with h | h | h
          · exact absurd h hp0
          · exact h
          · exact absurd h hl
        simp only [fscrypt_decrypt_pagecache_blocks]
        rw [if_neg hl, if_neg hp0, if_pos hpm]
        exact ⟨rfl, rfl⟩

/-- C8 witness: the fail-fast theorem applied to a zero-length encrypt and
to an unlocked-page page-level decrypt. -/
theorem precheck_fails_fast_witness :
    ((0 : Nat) = 0 ∨ (0 : Nat) % FSCRYPT_CONTENTS_ALIGNMENT ≠ 0) ∧
    (fscrypt_crypt_block envW stW inodeW .FS_ENCRYPT 1 pageW pageW 0
        0).ret = -22 ∧
    (fscrypt_crypt_block envW stW inodeW .FS_ENCRYPT 1 pageW pageW 0
        0).state = stW ∧
    (fscrypt_decrypt_pagecache_blocks envW stW pageUnlockedW 4096 0).ret =
      -22 :=
  ⟨Or.inl rfl,
    (precheck_fails_fast envW stW inodeW 1 pageW pageW 0 0 .FS_ENCRYPT
      (Or.inl rfl)).1.1,
    (precheck_fails_fast envW stW inodeW 1 pageW pageW 0 0 .FS_ENCRYPT
      (Or.inl rfl)).1.2.1,
    ((precheck_fails_fast envW stW inodeW 1 pageW pageW 0 0 .FS_ENCRYPT
      (Or.inl rfl)).2 pageUnlockedW 4096 0 (Or.inr (Or.inr rfl))).1⟩

/-- C9 (confirmed): performing the encrypt post-step twice with the same
ciphertext digest and the same owner inode leaves search(digest) unchanged
after the first operation — indeed both the in-memory table and the
backing store are unchanged by the second operation — and the second
operation calls no insert whenever the first did not fail with a full
table (even then, the repeated insert writes no slot).  The orchestrator's
search-before-insert existence check is what prevents the second insert. -/
theorem encrypt_twice_idempotent (env : CryptEnv) (st : CryptState)
    (inode : Inode) (lblk_num : Nat) (src_page dest_page : Page)
    (len offs : Nat) (hlen : len ≠ 0)
    (hal : len % FSCRYPT_CONTENTS_ALIGNMENT = 0)
    (halloc : env.req_alloc_ok = true) (hciph : env.cipher_res = 0) :
    (fscrypt_crypt_block env (fscrypt_crypt_block env st inode .FS_ENCRYPT
        lblk_num src_page dest_page len offs).state inode .FS_ENCRYPT
        lblk_num src_page dest_page len offs).state.arr =
      (fscrypt_crypt_block env st inode .FS_ENCRYPT lblk_num src_page
        dest_page len offs).state.arr ∧
    (fscrypt_crypt_block env (fscrypt_crypt_block env st inode .FS_ENCRYPT
        lblk_num src_page dest_page len offs).state inode .FS_ENCRYPT
        lblk_num src_page dest_page len offs).state.store =
      (fscrypt_crypt_block env st inode .FS_ENCRYPT lblk_num src_page
        dest_page len offs).state.store ∧
    crypt_search (fscrypt_crypt_block env (fscrypt_crypt_block env st inode
        .FS_ENCRYPT lblk_num src_page dest_page len offs).state inode
        .FS_ENCRYPT lblk_num src_page dest_page len offs).state.arr
        (env.hash_page_data dest_page) =
      crypt_search (fscrypt_crypt_block env st inode .FS_ENCRYPT lblk_num
        src_page dest_page len offs).state.arr
        (env.hash_page_data dest_page) ∧
    ((fscrypt_crypt_block env st inode .FS_ENCRYPT lblk_num src_page
        dest_page len offs).insertRet ≠ some 1 →
      (fscrypt_crypt_block env (fscrypt_crypt_block env st inode .FS_ENCRYPT
        lblk_num src_page dest_page len offs).state inode .FS_ENCRYPT
        lblk_num src_page dest_page len offs).insertRet = none) := by
  have hred : ∀ s0 : CryptState,
      fscrypt_crypt_block env s0 inode .FS_ENCRYPT lblk_num src_page
        dest_page len offs =
      ⟨0, some lblk_num,
        (encrypt_post_step env.junk s0 (env.hash_page_data dest_page)
          inode.i_ino).1, false,
        (encrypt_post_step env.junk s0 (env.hash_page_data dest_page)
          inode.i_ino).2⟩ := by
    intro s0
    simp only [fscrypt_crypt_block]
    rw [if_neg hlen, if_neg (by simp [hal]), if_neg (by simp [halloc]),
      if_neg (by simp [hciph])]
    simp
  have h1 : (fscrypt_crypt_block env st inode .FS_ENCRYPT lblk_num src_page
      dest_page len offs).state =
      (encrypt_post_step env.junk st (env.hash_page_data dest_page)
        inode.i_ino).1 := by
    rw [hred st]
  have h1r : (fscrypt_crypt_block env st inode .FS_ENCRYPT lblk_num src_page
      dest_page len offs).insertRet =
      (encrypt_post_step env.junk st (env.hash_page_data dest_page)
        inode.i_ino).2 := by
    rw [hred st]
  have h2 : (fscrypt_crypt_block env (fscrypt_crypt_block env st inode
      .FS_ENCRYPT lblk_num src_page dest_page len offs).state inode
      .FS_ENCRYPT lblk_num src_page dest_page len offs).state =
      (encrypt_post_step env.junk (encrypt_post_step env.junk st
        (env.hash_page_data dest_page) inode.i_ino).1
        (env.hash_page_data dest_page) inode.i_ino).1 := by
    rw [h1, hred ((encrypt_post_step env.junk st (env.hash_page_data
      dest_page) inode.i_ino).1)]
  have h2r : (fscrypt_crypt_block env (fscrypt_crypt_block env st inode
      .FS_ENCRYPT lblk_num src_page dest_page len offs).state inode
      .FS_ENCRYPT lblk_num src_page dest_page len offs).insertRet =
      (encrypt_post_step env.junk (encrypt_post_step env.junk st
        (env.hash_page_data dest_page) inode.i_ino).1
        (env.hash_page_data dest_page) inode.i_ino).2 := by
    rw [h1, hred ((encrypt_post_step env.junk st (env.hash_page_data
      dest_page) inode.i_ino).1)]
  obtain ⟨ha, hs, hi⟩ := encrypt_post_step_twice env.junk
    (env.hash_page_data dest_page) st inode.i_ino
  refine ⟨?_, ?_, ?_, ?_⟩
  · rw [h2, h1]
    exact ha
  · rw [h2, h1]
    exact hs
  · rw [h2, h1, ha]
  · intro hne
    rw [h1r] at hne
    rw [h2r]
    exact hi hne

/-- C9 witness: the idempotence theorem applied at a concrete state whose
backing store already owns the digest, all four hypotheses evaluated. -/
theorem encrypt_twice_idempotent_witness :
    (16 : Nat) ≠ 0 ∧ (16 : Nat) % FSCRYPT_CONTENTS_ALIGNMENT = 0 ∧
    envW.req_alloc_ok = true ∧ envW.cipher_res = 0 ∧
    (fscrypt_crypt_block envW (fscrypt_crypt_block envW stOwned inodeW
        .FS_ENCRYPT 0 pageW pageW 16 0).state inodeW .FS_ENCRYPT 0 pageW
        pageW 16 0).state.arr =
      (fscrypt_crypt_block envW stOwned inodeW .FS_ENCRYPT 0 pageW pageW 16
        0).state.arr :=
  ⟨by decide, by decide, by decide, by decide,
    (encrypt_twice_idempotent envW stOwned inodeW 0 pageW pageW 16 0
      (by decide) (by decide) (by decide) (by decide)).1⟩

/-- C10 (confirmed): the search match condition reads only the stored
fingerprint bytes — every entry a successful crypt_search returns
strncmp-matches the query, with no constraint on its owner — and on a
bootstrap-shaped table crypt_search returns an entry whose owner_inode is
0, so a successful search does not guarantee a live entry; on such a state
the encrypt orchestrator consequently performs no insert even though no
live entry for the digest exists, its existence check testing fingerprint
presence rather than liveness. -/
theorem search_tests_presence_not_liveness :
    (∀ (t : CryptTable) (f : List Nat) (e : Cryptitem),
      crypt_search t f = some e → strncmp e.fingerprint_crypt f 16 = 0) ∧
    crypt_search tableBootstrapped digestW = some ⟨digestW, 0⟩ ∧
    (fscrypt_crypt_block envW stBootstrapped inodeW .FS_ENCRYPT 0 pageW pageW
        16 0).insertRet = none := by
  refine ⟨fun t f e h => searchAux_matches DEDUP_TABLE_SIZE (hashCrypt f) e h,
    by decide, rfl⟩

/-- C10 witness: the byte-only match property applied to the concrete
bootstrap-shaped table, the search hypothesis evaluated. -/
theorem search_tests_presence_not_liveness_witness :
    crypt_search tableBootstrapped digestW = some ⟨digestW, 0⟩ ∧
    strncmp (Cryptitem.mk digestW 0).fingerprint_crypt digestW 16 = 0 :=
  ⟨by decide, search_tests_presence_not_liveness.1 tableBootstrapped digestW
    ⟨digestW, 0⟩ (by decide)⟩

